import Mathlib

/-!
# Verification of the gamma-Poisson significance core

A shallow embedding of the computational core (file phip/gampois.py):
a Poisson log-survival-function series, a gamma-prior maximum-likelihood
fitter, a closed-form posterior-rate estimator, a significance transformer,
and the orchestrating model function.  Tables are embedded as lists of rows
with row and column labels; machine floats are idealised as real numbers,
except that the possibility of a log-domain underflow to minus infinity in
the tail engine is tracked with extended reals where the code explicitly
guards against it.
-/

/-- A labelled two-dimensional table: the embedding of a pandas DataFrame.
Rows of data are listed in row-label order; labels are an arbitrary type. -/
structure DFrame (L : Type) (K : Type) where
  rowLabels : List L
  colLabels : List L
  data : List (List K)

/-- Embedding of gamma_poisson_posterior_rates: each cell strictly greater
than upper_bound is masked (np.ma.masked_greater); per row, the sum of the
unmasked cells and the number of unmasked cells feed the closed-form
posterior mean (alpha + sum) / (beta + size).  A fully masked row
contributes sum 0 and size 0, exactly as np.ma.sum yields 0 there. -/
def gamma_poisson_posterior_rates {L K : Type} [LinearOrderedField K]
    (counts : DFrame L K) (alpha beta upper_bound : K) : List K :=
  counts.data.map (fun row =>
    (alpha + (row.filter (fun v => v ≤ upper_bound)).sum) /
      (beta + ((row.filter (fun v => v ≤ upper_bound)).length : K)))

lemma sum_filter_le_eq_sum_ite {K : Type} [LinearOrderedField K]
    (ub : K) (row : List K) :
    (row.filter (fun v => v ≤ ub)).sum =
      (row.map (fun v => if v ≤ ub then v else 0)).sum := by
  induction row with
  | nil => simp
  | cons a l ih =>
      by_cases h : a ≤ ub
      · simp [List.filter_cons, h, ih]
      · simp [List.filter_cons, h, ih]

/-- Claim C2: for every count table, strictly positive alpha and beta, and
upper bound, gamma_poisson_posterior_rates returns per row
(alpha + row sum) / (beta + row unmasked count), where cells strictly
greater than the upper bound are excluded from both the sum and the count;
on a table with no masked entries it reduces exactly to
(alpha + row sum) / (beta + row count). -/
theorem posterior_rates_masked_formula {L : Type} (counts : DFrame L ℚ)
    (alpha beta ub : ℚ) (ha : 0 < alpha) (hb : 0 < beta) :
    gamma_poisson_posterior_rates counts alpha beta ub =
        counts.data.map (fun row =>
          (alpha + (row.map (fun v => if v ≤ ub then v else 0)).sum) /
            (beta + (row.countP (fun v => v ≤ ub) : ℚ))) ∧
      ((∀ row ∈ counts.data, ∀ v ∈ row, v ≤ ub) →
        gamma_poisson_posterior_rates counts alpha beta ub =
          counts.data.map (fun row =>
            (alpha + row.sum) / (beta + (row.length : ℚ)))) := by
  constructor
  · unfold gamma_poisson_posterior_rates
    apply List.map_congr_left
    intro row _
    rw [sum_filter_le_eq_sum_ite, List.countP_eq_length_filter]
  · intro hall
    unfold gamma_poisson_posterior_rates
    apply List.map_congr_left
    intro row hrow
    have : row.filter (fun v => v ≤ ub) = row := by
      rw [List.filter_eq_self]
      intro a ha
      exact decide_eq_true (hall row hrow a ha)
    rw [this]

/-- Witness for C2 at a concrete table: alpha = 2, beta = 1, one row
[3, 4, 5] with upper bound 10 (nothing masked); the rate is 14/4 = 7/2. -/
theorem posterior_rates_masked_formula_witness :
    0 < (2 : ℚ) ∧ 0 < (1 : ℚ) ∧
      (gamma_poisson_posterior_rates
          (DFrame.mk [0] [0, 1, 2] [[(3 : ℚ), 4, 5]]) 2 1 10 =
        [[(3 : ℚ), 4, 5]].map (fun row =>
          (2 + row.sum) / (1 + (row.length : ℚ)))) ∧
      gamma_poisson_posterior_rates
          (DFrame.mk [0] [0, 1, 2] [[(3 : ℚ), 4, 5]]) 2 1 10 = [7 / 2] := by
  refine ⟨by norm_num, by norm_num, ?_, ?_⟩
  · exact (posterior_rates_masked_formula
      (DFrame.mk [0] [0, 1, 2] [[(3 : ℚ), 4, 5]]) 2 1 10
      (by norm_num) (by norm_num)).2 (by norm_num)
  · norm_num [gamma_poisson_posterior_rates, List.filter]

/-- Claim C3: a row in which every cell exceeds the upper bound (zero
unmasked entries) yields posterior rate exactly alpha / beta, the prior
mean; the function is total, so no error is raised on this input. -/
theorem posterior_rate_fully_masked_row {L : Type} (counts : DFrame L ℚ)
    (alpha beta ub : ℚ) (i : ℕ) (hi : i < counts.data.length)
    (hrow : ∀ v ∈ counts.data.getD i [], ub < v) :
    (gamma_poisson_posterior_rates counts alpha beta ub).getD i 0 =
      alpha / beta := by
  have hlen : i < (gamma_poisson_posterior_rates counts alpha beta ub).length := by
    simpa [gamma_poisson_posterior_rates] using hi
  rw [List.getD_eq_getElem _ _ hlen]
  unfold gamma_poisson_posterior_rates at hlen ⊢
  rw [List.getElem_map]
  have hget : counts.data[i] = counts.data.getD i [] :=
    (List.getD_eq_getElem _ _ hi).symm
  have hfil : (counts.data[i]).filter (fun v => v ≤ ub) = [] := by
    rw [List.filter_eq_nil]
    intro a ha
    have hub := hrow a (by rw [← hget]; exact ha)
    simp only [decide_eq_true_eq]
    exact not_le.mpr hub
  rw [hfil]
  simp

/-- Witness for C3 at a concrete table: the single row [5, 6] lies entirely
above the upper bound 1, and the returned rate is 3/2 = alpha/beta. -/
theorem posterior_rate_fully_masked_row_witness :
    0 < ([[(5 : ℚ), 6]] : List (List ℚ)).length ∧
      (∀ v ∈ ([[(5 : ℚ), 6]] : List (List ℚ)).getD 0 [], (1 : ℚ) < v) ∧
      (gamma_poisson_posterior_rates
          (DFrame.mk [0] [0, 1] [[(5 : ℚ), 6]]) 3 2 1).getD 0 0 = 3 / 2 := by
  refine ⟨by norm_num, by decide, ?_⟩
  exact posterior_rate_fully_masked_row
    (DFrame.mk [0] [0, 1] [[(5 : ℚ), 6]]) 3 2 1 0 (by norm_num) (by decide)

/-- Embedding of the statistic m of fit_gamma: the source sets m to the
length of the WHOLE sample (zeros included), m = len(x). -/
noncomputable def fitGammaM (x : List ℝ) : ℝ := (x.length : ℝ)

/-- Embedding of the statistic s of fit_gamma: the sum over the strictly
positive entries only, s = x[x greater than 0].sum(). -/
noncomputable def fitGammaS (x : List ℝ) : ℝ := (x.filter (fun v => 0 < v)).sum

/-- Embedding of the statistic sl of fit_gamma: the sum of logarithms over
the strictly positive entries only, sl = np.log(x[x greater than 0]).sum(). -/
noncomputable def fitGammaSL (x : List ℝ) : ℝ :=
  ((x.filter (fun v => 0 < v)).map Real.log).sum

/-- Embedding of the inner function ll of fit_gamma: the negative
log-likelihood evaluated at the parameter pair (alpha, beta), written
exactly as in the source:
-1 * (m*a*log(b) - m*gammaln(a) + (a-1)*sl - b*s), with gammaln a
embedded as log (Gamma a). -/
noncomputable def fitGammaNLL (x : List ℝ) (p : ℝ × ℝ) : ℝ :=
  -1 * (fitGammaM x * p.1 * Real.log p.2
    - fitGammaM x * Real.log (Real.Gamma p.1)
    + (p.1 - 1) * fitGammaSL x - p.2 * fitGammaS x)

/-- Modelled from the spec: the observation count that claim C1 describes,
namely the number of STRICTLY POSITIVE entries of the sample (the spec
says zeros are excluded from the count m). Stated only to be compared
with the count the source actually uses. -/
noncomputable def fitGammaMSpec (x : List ℝ) : ℝ :=
  ((x.filter (fun v => 0 < v)).length : ℝ)

/-- Modelled from the spec: the negative log-likelihood of claim C1, with
the observation count m taken over the strictly positive subset only. -/
noncomputable def fitGammaNLLSpec (x : List ℝ) (p : ℝ × ℝ) : ℝ :=
  -1 * (fitGammaMSpec x * p.1 * Real.log p.2
    - fitGammaMSpec x * Real.log (Real.Gamma p.1)
    + (p.1 - 1) * fitGammaSL x - p.2 * fitGammaS x)

/-- Embedding of the scipy optimizer result object: the returned point and
the convergence flag.  The source reads only the field x and never
inspects success. -/
structure OptimizeResult where
  x : ℝ × ℝ
  success : Bool

/-- The initial point np.asarray([2, 1]) handed to the minimizer. -/
def fitGammaInit : ℝ × ℝ := (2, 1)

/-- The lower bound np.nextafter(0, 1) of both box constraints: the
smallest positive subnormal double, 2 to the power -1074. -/
noncomputable def fitGammaLowerBound : ℝ := 2 ^ (-(1074 : ℤ))

/-- Embedding of fit_gamma: reduce the sample to the statistics m, s, sl
inside the objective, call the black-box bounded minimizer (passed as an
argument, standing for sp.optimize.minimize) on the objective from the
initial point with the box lower bounds, and return the point param.x
unconditionally. -/
noncomputable def fit_gamma
    (minimize : ((ℝ × ℝ) → ℝ) → (ℝ × ℝ) → (ℝ × ℝ) → OptimizeResult)
    (x : List ℝ) : ℝ × ℝ :=
  (minimize (fitGammaNLL x) fitGammaInit
    (fitGammaLowerBound, fitGammaLowerBound)).x

lemma filter_pos_zero_one : ([0, 1] : List ℝ).filter (fun v => 0 < v) = [1] := by
  simp only [List.filter_cons, List.filter_nil, decide_eq_true_eq]
  norm_num

/-- Counterexample to claim C1 as stated: on the sample [0, 1], which has
one zero, the negative log-likelihood the code minimizes (m = 2, the full
length) differs at (alpha, beta) = (2, 2) from the one the claim
describes (m = 1, only the positive entries counted). -/
theorem fit_gamma_nll_mismatch :
    fitGammaNLL [0, 1] (2, 2) ≠ fitGammaNLLSpec [0, 1] (2, 2) := by
  have hlog2 : 0 < Real.log 2 := Real.log_pos (by norm_num)
  simp only [fitGammaNLL, fitGammaNLLSpec, fitGammaM, fitGammaMSpec,
    fitGammaS, fitGammaSL, filter_pos_zero_one]
  simp only [List.length_cons, List.length_nil, List.map_cons, List.map_nil,
    List.sum_cons, List.sum_nil, Real.log_one, Real.Gamma_two]
  intro h
  push_cast at h
  nlinarith [hlog2]

/-- Claim C1 amended: fit_gamma minimizes the negative log-likelihood
NLL(a, b) = -(m*a*log(b) - m*logGamma(a) + (a-1)*sl - b*s) in which the
sum s and log-sum sl range over the strictly positive entries only, but
the observation count m is the length of the WHOLE sample, zeros
included; the minimizer starts at (2, 1) and both box lower bounds are
strictly positive. -/
theorem fit_gamma_nll_formula (x : List ℝ) (p : ℝ × ℝ) :
    fitGammaNLL x p =
        -((x.length : ℝ) * p.1 * Real.log p.2
          - (x.length : ℝ) * Real.log (Real.Gamma p.1)
          + (p.1 - 1) * ((x.filter (fun v => 0 < v)).map Real.log).sum
          - p.2 * (x.filter (fun v => 0 < v)).sum) ∧
      fitGammaInit = (2, 1) ∧ 0 < fitGammaLowerBound := by
  refine ⟨?_, rfl, ?_⟩
  · simp only [fitGammaNLL, fitGammaM, fitGammaS, fitGammaSL]
    ring
  · unfold fitGammaLowerBound
    positivity

/-- A stand-in optimizer run that reports failure to converge while
yielding the point (5, 7); used to exhibit that fit_gamma ignores the
convergence flag. -/
def nonConvergedRun : ((ℝ × ℝ) → ℝ) → (ℝ × ℝ) → (ℝ × ℝ) → OptimizeResult :=
  fun _f _init _bounds => OptimizeResult.mk (5, 7) false

/-- Counterexample to claim C8 as stated: on the sample [0], whose
strictly positive subset is empty, and under an optimizer run that
reports non-convergence, fit_gamma still returns the point (5, 7): it
neither checks the positive subset nor the success flag, and raises
nothing. -/
theorem fit_gamma_no_failure :
    fit_gamma nonConvergedRun [0] = (5, 7) ∧
      (nonConvergedRun (fitGammaNLL [0]) fitGammaInit
        (fitGammaLowerBound, fitGammaLowerBound)).success = false ∧
      ([0] : List ℝ).filter (fun v => 0 < v) = [] := by
  refine ⟨rfl, rfl, ?_⟩
  simp only [List.filter_cons, List.filter_nil, decide_eq_true_eq]
  norm_num

/-- Claim C8 amended: fit_gamma performs no validation at all: for every
minimizer and every sample (including samples with no positive entry) it
returns the optimizer point param.x unconditionally, with no emptiness
check and no inspection of the convergence flag. -/
theorem fit_gamma_returns_unconditionally
    (minimize : ((ℝ × ℝ) → ℝ) → (ℝ × ℝ) → (ℝ × ℝ) → OptimizeResult)
    (x : List ℝ) :
    fit_gamma minimize x =
      (minimize (fitGammaNLL x) fitGammaInit
        (fitGammaLowerBound, fitGammaLowerBound)).x := rfl

/-- Embedding of the series term of poisson_logsf: the log-domain Poisson
mass k*log(rate) - rate - gammaln(k + 1), for a general real index k as
the source computes it (counts enter as floats). -/
noncomputable def logPoisTerm (rate x : ℝ) : ℝ :=
  x * Real.log rate - rate - Real.log (Real.Gamma (x + 1))

/-- The running log-sum-exp of poisson_logsf after j additional terms for
the element with count c: the source initialises accum with the term at
c + 1 and each loop pass folds in the next term with np.logaddexp, which
over the reals is exactly the logarithm of the sum of exponentials of the
terms at c + 1, ..., c + 1 + j. -/
noncomputable def logsfAccum (rate c : ℝ) (j : ℕ) : ℝ :=
  Real.log (∑ i in Finset.range (j + 1), Real.exp (logPoisTerm rate (c + 1 + i)))

/-- The break test of the loop of poisson_logsf after the pass that
produced the accumulator with index j + 1: np.all(new - accum < 0.0001),
that is, the update is below the tolerance for EVERY element at once. -/
def logsfConverged (cs : List ℝ) (rate : ℝ) (j : ℕ) : Prop :=
  ∀ c ∈ cs, logsfAccum rate c (j + 1) - logsfAccum rate c j < 1 / 10000

/-- The number of the pass at which the loop of poisson_logsf breaks: the
least j such that the pass from accumulator j to accumulator j + 1 moved
every element by less than the tolerance. -/
noncomputable def logsfSteps (cs : List ℝ) (rate : ℝ) : ℕ :=
  sInf {j | logsfConverged cs rate j}

/-- Embedding of poisson_logsf: each element is the accumulator value
AFTER the pass that triggered the break (the source returns new, not
accum), hence at index logsfSteps + 1; the iteration count is shared by
the whole vector (lock-step). -/
noncomputable def poisson_logsf (cs : List ℝ) (rate : ℝ) : List ℝ :=
  cs.map (fun c => logsfAccum rate c (logsfSteps cs rate + 1))

lemma exp_logPoisTerm_nat (rate : ℝ) (h : 0 < rate) (n : ℕ) :
    Real.exp (logPoisTerm rate n) = rate ^ n * Real.exp (-rate) / (Nat.factorial n : ℝ) := by
  have hg : (0 : ℝ) < Real.Gamma ((n : ℝ) + 1) :=
    Real.Gamma_pos_of_pos (by positivity)
  have hrw : logPoisTerm rate n =
      (n : ℝ) * Real.log rate + (-rate) + (-Real.log (Real.Gamma ((n : ℝ) + 1))) := by
    unfold logPoisTerm; ring
  rw [hrw, Real.exp_add, Real.exp_add, Real.exp_nat_mul, Real.exp_log h,
    Real.exp_neg, Real.exp_neg, Real.exp_log hg, Real.Gamma_nat_eq_factorial,
    div_eq_mul_inv]

lemma logsfAccum_sum_pos (rate c : ℝ) (j : ℕ) :
    0 < ∑ i in Finset.range (j + 1), Real.exp (logPoisTerm rate (c + 1 + i)) :=
  Finset.sum_pos (fun _i _ => Real.exp_pos _)
    (Finset.nonempty_range_iff.mpr (Nat.succ_ne_zero j))

lemma logsfAccum_first_le (rate c : ℝ) (j : ℕ) :
    Real.exp (logPoisTerm rate (c + 1 + (0 : ℕ))) ≤
      ∑ i in Finset.range (j + 1), Real.exp (logPoisTerm rate (c + 1 + i)) := by
  have h := Finset.single_le_sum
    (f := fun i : ℕ => Real.exp (logPoisTerm rate (c + 1 + i)))
    (fun _i _ => le_of_lt (Real.exp_pos _))
    (Finset.mem_range.mpr (Nat.succ_pos j))
  exact h

lemma logsfAccum_step_le (rate c : ℝ) (j : ℕ) :
    logsfAccum rate c (j + 1) - logsfAccum rate c j ≤
      Real.exp (logPoisTerm rate (c + 1 + (j + 1 : ℕ))) /
        Real.exp (logPoisTerm rate (c + 1 + (0 : ℕ))) := by
  set A := ∑ i in Finset.range (j + 1), Real.exp (logPoisTerm rate (c + 1 + i)) with hA
  set t := Real.exp (logPoisTerm rate (c + 1 + (j + 1 : ℕ))) with ht
  have hApos : 0 < A := logsfAccum_sum_pos rate c j
  have htpos : 0 < t := Real.exp_pos _
  have hsum : logsfAccum rate c (j + 1) = Real.log (A + t) := by
    unfold logsfAccum
    rw [Finset.sum_range_succ]
  have hstep : logsfAccum rate c (j + 1) - logsfAccum rate c j =
      Real.log ((A + t) / A) := by
    rw [hsum]
    unfold logsfAccum
    rw [← hA, Real.log_div (by positivity) (ne_of_gt hApos)]
  rw [hstep]
  have h1 : Real.log ((A + t) / A) ≤ (A + t) / A - 1 :=
    Real.log_le_sub_one_of_pos (by positivity)
  have h2 : (A + t) / A - 1 = t / A := by
    field_simp
  have h3 : t / A ≤ t / Real.exp (logPoisTerm rate (c + 1 + (0 : ℕ))) := by
    apply div_le_div_of_nonneg_left (le_of_lt htpos) (Real.exp_pos _)
    exact logsfAccum_first_le rate c j
  calc Real.log ((A + t) / A) ≤ (A + t) / A - 1 := h1
    _ = t / A := h2
    _ ≤ _ := h3

lemma tendsto_exp_logPoisTerm (rate : ℝ) (h : 0 < rate) (m : ℕ) :
    Filter.Tendsto (fun j : ℕ => Real.exp (logPoisTerm rate ((m : ℝ) + 1 + j)))
      Filter.atTop (nhds 0) := by
  have hcast : ∀ j : ℕ, (m : ℝ) + 1 + j = ((m + 1 + j : ℕ) : ℝ) := by
    intro j; push_cast; ring
  have hbase : Filter.Tendsto (fun n : ℕ => rate ^ n / (Nat.factorial n : ℝ))
      Filter.atTop (nhds 0) := FloorSemiring.tendsto_pow_div_factorial_atTop rate
  have hshift : Filter.Tendsto (fun j : ℕ => rate ^ (j + (m + 1)) / (Nat.factorial (j + (m + 1)) : ℝ))
      Filter.atTop (nhds 0) := hbase.comp (Filter.tendsto_add_atTop_nat (m + 1))
  have hmul : Filter.Tendsto
      (fun j : ℕ => rate ^ (j + (m + 1)) / (Nat.factorial (j + (m + 1)) : ℝ) * Real.exp (-rate))
      Filter.atTop (nhds 0) := by
    have := hshift.mul_const (Real.exp (-rate))
    simpa using this
  apply hmul.congr
  intro j
  rw [hcast j, exp_logPoisTerm_nat rate h]
  have : m + 1 + j = j + (m + 1) := by omega
  rw [this]
  ring

lemma eventually_step_lt_tol (rate : ℝ) (h : 0 < rate) (m : ℕ) :
    ∀ᶠ j in Filter.atTop,
      logsfAccum rate (m : ℝ) (j + 1) - logsfAccum rate (m : ℝ) j < 1 / 10000 := by
  set s0 := Real.exp (logPoisTerm rate ((m : ℝ) + 1 + (0 : ℕ))) with hs0
  have hs0pos : 0 < s0 := Real.exp_pos _
  have hev : ∀ᶠ (j : ℕ) in Filter.atTop,
      Real.exp (logPoisTerm rate ((m : ℝ) + 1 + j)) < 1 / 10000 * s0 :=
    (tendsto_exp_logPoisTerm rate h m).eventually_lt_const (by positivity)
  have hev1 : ∀ᶠ (j : ℕ) in Filter.atTop,
      Real.exp (logPoisTerm rate ((m : ℝ) + 1 + ((j + 1 : ℕ) : ℝ))) < 1 / 10000 * s0 := by
    obtain ⟨N, hN⟩ := Filter.eventually_atTop.mp hev
    refine Filter.eventually_atTop.mpr ⟨N, fun j hj => ?_⟩
    exact_mod_cast hN (j + 1) (le_trans hj (Nat.le_succ j))
  refine hev1.mono ?_
  intro j hj
  have hstep := logsfAccum_step_le rate (m : ℝ) j
  have hdiv : Real.exp (logPoisTerm rate ((m : ℝ) + 1 + (j + 1 : ℕ))) / s0 < 1 / 10000 := by
    rw [div_lt_iff hs0pos]
    exact_mod_cast hj
  calc logsfAccum rate (m : ℝ) (j + 1) - logsfAccum rate (m : ℝ) j
      ≤ Real.exp (logPoisTerm rate ((m : ℝ) + 1 + (j + 1 : ℕ))) / s0 := hstep
    _ < 1 / 10000 := hdiv

lemma eventually_forall_mem_list {Q : ℝ → ℕ → Prop} :
    ∀ cs : List ℝ, (∀ c ∈ cs, ∀ᶠ j in Filter.atTop, Q c j) →
      ∀ᶠ j in Filter.atTop, ∀ c ∈ cs, Q c j := by
  intro cs
  induction cs with
  | nil => intro _; exact Filter.Eventually.of_forall (by simp)
  | cons a l ih =>
      intro hall
      have ha := hall a (List.mem_cons_self a l)
      have hl := ih (fun c hc => hall c (List.mem_cons_of_mem a hc))
      refine (ha.and hl).mono ?_
      rintro j ⟨h1, h2⟩ c hc
      rcases List.mem_cons.mp hc with rfl | hc
      · exact h1
      · exact h2 c hc

lemma exists_logsfConverged (cs : List ℕ) (rate : ℝ) (h : 0 < rate) :
    ∃ j, logsfConverged (cs.map (fun n : ℕ => (n : ℝ))) rate j := by
  have hev : ∀ᶠ j in Filter.atTop,
      ∀ c ∈ cs.map (fun n : ℕ => (n : ℝ)),
        logsfAccum rate c (j + 1) - logsfAccum rate c j < 1 / 10000 := by
    apply eventually_forall_mem_list
    intro c hc
    obtain ⟨m, _, rfl⟩ := List.mem_map.mp hc
    exact eventually_step_lt_tol rate h m
  obtain ⟨N, hN⟩ := Filter.eventually_atTop.mp hev
  exact ⟨N, hN N le_rfl⟩

/-- Claim C7: for every rate greater than 0 and every vector of
non-negative integer counts, the series loop of poisson_logsf terminates:
a pass at which every element moves by less than the tolerance 1/10000
exists, logsfSteps is such a pass, and at every EARLIER pass the
all-elements condition fails, so the loop runs in lock-step exactly until
the first pass at which all elements have converged simultaneously. -/
theorem poisson_logsf_terminates_lockstep (cs : List ℕ) (rate : ℝ) (h : 0 < rate) :
    logsfConverged (cs.map (fun n : ℕ => (n : ℝ))) rate
        (logsfSteps (cs.map (fun n : ℕ => (n : ℝ))) rate) ∧
      ∀ j < logsfSteps (cs.map (fun n : ℕ => (n : ℝ))) rate,
        ¬ logsfConverged (cs.map (fun n : ℕ => (n : ℝ))) rate j := by
  have hex := exists_logsfConverged cs rate h
  constructor
  · exact Nat.sInf_mem hex
  · intro j hj
    exact Nat.not_mem_of_lt_sInf hj

/-- Witness for C7 at the concrete input counts = [0], rate = 1. -/
theorem poisson_logsf_terminates_lockstep_witness :
    0 < (1 : ℝ) ∧
      (logsfConverged ([0].map (fun n : ℕ => (n : ℝ))) 1
          (logsfSteps ([0].map (fun n : ℕ => (n : ℝ))) 1) ∧
        ∀ j < logsfSteps ([0].map (fun n : ℕ => (n : ℝ))) 1,
          ¬ logsfConverged ([0].map (fun n : ℕ => (n : ℝ))) 1 j) :=
  ⟨one_pos, poisson_logsf_terminates_lockstep [0] 1 one_pos⟩

lemma logsfAccum_nat_eq_Icc (rate : ℝ) (h : 0 < rate) (m j : ℕ) :
    logsfAccum rate (m : ℝ) j =
      Real.log (∑ k in Finset.Icc (m + 1) (m + 1 + j),
        rate ^ k * Real.exp (-rate) / (Nat.factorial k : ℝ)) := by
  unfold logsfAccum
  congr 1
  rw [← Nat.Ico_succ_right, Finset.sum_Ico_eq_sum_range]
  have hlen : m + 1 + j + 1 - (m + 1) = j + 1 := by omega
  rw [hlen]
  apply Finset.sum_congr rfl
  intro i _
  have hcast : (m : ℝ) + 1 + i = ((m + 1 + i : ℕ) : ℝ) := by push_cast; ring
  rw [hcast, exp_logPoisTerm_nat rate h]

/-- Claim C10: poisson_logsf always performs at least one accumulation
pass and returns the running log-sum INCLUDING the final term that
triggered the convergence check (the source returns new, not accum): for
every counts vector and positive rate, each returned element is the
log-sum-exp of the Poisson mass terms for k = count + 1 through
count + 1 + j for some j of at least 1, and the contribution of the last
term to the log-sum lies below the tolerance 1/10000. -/
theorem poisson_logsf_includes_final_term (cs : List ℕ) (rate : ℝ)
    (h : 0 < rate) (i : ℕ) (hi : i < cs.length) :
    ∃ j, 1 ≤ j ∧
      (poisson_logsf (cs.map (fun n : ℕ => (n : ℝ))) rate).getD i 0 =
        Real.log (∑ k in Finset.Icc (cs.getD i 0 + 1) (cs.getD i 0 + 1 + j),
          rate ^ k * Real.exp (-rate) / (Nat.factorial k : ℝ)) ∧
      Real.log (∑ k in Finset.Icc (cs.getD i 0 + 1) (cs.getD i 0 + 1 + j),
          rate ^ k * Real.exp (-rate) / (Nat.factorial k : ℝ)) -
        Real.log (∑ k in Finset.Icc (cs.getD i 0 + 1) (cs.getD i 0 + j),
          rate ^ k * Real.exp (-rate) / (Nat.factorial k : ℝ)) < 1 / 10000 := by
  refine ⟨logsfSteps (cs.map (fun n : ℕ => (n : ℝ))) rate + 1,
    Nat.le_add_left 1 _, ?_, ?_⟩
  · have hlen : i < (poisson_logsf (cs.map (fun n : ℕ => (n : ℝ))) rate).length := by
      simpa [poisson_logsf] using hi
    rw [List.getD_eq_getElem _ _ hlen]
    unfold poisson_logsf
    rw [List.getElem_map, List.getElem_map]
    have hval : cs[i] = cs.getD i 0 := (List.getD_eq_getElem _ _ hi).symm
    rw [hval, logsfAccum_nat_eq_Icc rate h]
  · have hconv : logsfConverged (cs.map (fun n : ℕ => (n : ℝ))) rate
        (logsfSteps (cs.map (fun n : ℕ => (n : ℝ))) rate) :=
      Nat.sInf_mem (exists_logsfConverged cs rate h)
    have hmem : ((cs.getD i 0 : ℕ) : ℝ) ∈ cs.map (fun n : ℕ => (n : ℝ)) := by
      refine List.mem_map.mpr ⟨cs.getD i 0, ?_, rfl⟩
      rw [List.getD_eq_getElem _ _ hi]
      exact List.getElem_mem hi
    have hstep := hconv _ hmem
    rw [logsfAccum_nat_eq_Icc rate h, logsfAccum_nat_eq_Icc rate h] at hstep
    have e1 : cs.getD i 0 +
        (logsfSteps (cs.map (fun n : ℕ => (n : ℝ))) rate + 1) =
        cs.getD i 0 + 1 + logsfSteps (cs.map (fun n : ℕ => (n : ℝ))) rate := by
      omega
    rw [e1]
    exact hstep

/-- Witness for C10 at the concrete input counts = [0], rate = 1, row 0. -/
theorem poisson_logsf_includes_final_term_witness :
    0 < (1 : ℝ) ∧ 0 < ([0] : List ℕ).length ∧
      ∃ j, 1 ≤ j ∧
        (poisson_logsf ([0].map (fun n : ℕ => (n : ℝ))) 1).getD 0 0 =
          Real.log (∑ k in Finset.Icc (([0] : List ℕ).getD 0 0 + 1)
              (([0] : List ℕ).getD 0 0 + 1 + j),
            (1 : ℝ) ^ k * Real.exp (-1) / (Nat.factorial k : ℝ)) ∧
        Real.log (∑ k in Finset.Icc (([0] : List ℕ).getD 0 0 + 1)
            (([0] : List ℕ).getD 0 0 + 1 + j),
          (1 : ℝ) ^ k * Real.exp (-1) / (Nat.factorial k : ℝ)) -
          Real.log (∑ k in Finset.Icc (([0] : List ℕ).getD 0 0 + 1)
              (([0] : List ℕ).getD 0 0 + j),
            (1 : ℝ) ^ k * Real.exp (-1) / (Nat.factorial k : ℝ)) < 1 / 10000 :=
  ⟨one_pos, by norm_num,
    poisson_logsf_includes_final_term [0] 1 one_pos 0 (by norm_num)⟩

/-- The smallest positive normal double-precision value,
np.finfo(np.float64).tiny = 2 to the power -1022. -/
noncomputable def tinyFloat : ℝ := 2 ^ (-(1022 : ℤ))

/-- The finite ceiling -np.log10(np.finfo(np.float64).tiny) substituted
for infinite cells by mlxp_gamma_poisson. -/
noncomputable def infReplacement : ℝ := -(Real.log tinyFloat / Real.log 10)

/-- One cell of the significance table over extended reals: the cell
value -logsf / log(10) computed from the tail-engine output (which a
float run can drive to minus infinity, modelled by the bottom element),
followed by the replacement of plus infinity by the finite ceiling, the
mlxp.replace(np.inf, ...) line of the source. -/
noncomputable def mlxpCell (v : EReal) : EReal :=
  if -v * (((Real.log 10)⁻¹ : ℝ) : EReal) = ⊤ then (infReplacement : EReal)
  else -v * (((Real.log 10)⁻¹ : ℝ) : EReal)

/-- Embedding of mlxp_gamma_poisson: for each row of the count table,
apply poisson_logsf to the raw row with the rate of that row, transform
each cell by negation and division by log(10) with the infinity
replacement, and rebuild the table with the row and column labels of the
input (pd.DataFrame(data=mlxp, index=counts.index, columns=counts.columns)). -/
noncomputable def mlxp_gamma_poisson {LF : Type} (counts : DFrame LF ℝ)
    (rates : List ℝ) : DFrame LF EReal :=
  DFrame.mk counts.rowLabels counts.colLabels
    (List.zipWith
      (fun row r => (poisson_logsf row r).map (fun x : ℝ => mlxpCell (x : EReal)))
      counts.data rates)

lemma log_ten_pos : 0 < Real.log 10 := Real.log_pos (by norm_num)

lemma mlxpCell_coe (x : ℝ) :
    mlxpCell (x : EReal) = ((-x / Real.log 10 : ℝ) : EReal) := by
  unfold mlxpCell
  have hmul : -(x : EReal) * (((Real.log 10)⁻¹ : ℝ) : EReal) =
      ((-x * (Real.log 10)⁻¹ : ℝ) : EReal) := by
    rw [← EReal.coe_neg, ← EReal.coe_mul]
  rw [hmul, if_neg (EReal.coe_ne_top _)]
  rw [div_eq_mul_inv]

lemma mlxpCell_bot : mlxpCell ⊥ = (infReplacement : EReal) := by
  unfold mlxpCell
  have htop : -(⊥ : EReal) * (((Real.log 10)⁻¹ : ℝ) : EReal) = ⊤ := by
    rw [EReal.neg_bot]
    exact EReal.top_mul_coe_of_pos (inv_pos.mpr log_ten_pos)
  rw [htop, if_pos rfl]

lemma infReplacement_eq : infReplacement = 1022 * Real.log 2 / Real.log 10 := by
  unfold infReplacement tinyFloat
  rw [Real.log_zpow]
  push_cast
  ring

lemma infReplacement_bounds : (307 : ℝ) < infReplacement ∧ infReplacement < 308 := by
  have h10 : (0 : ℝ) < Real.log 10 := log_ten_pos
  rw [infReplacement_eq]
  constructor
  · rw [lt_div_iff h10]
    have hpow : ((10 : ℝ) ^ (307 : ℕ)) < (2 : ℝ) ^ (1022 : ℕ) := by
      have hnat : (10 : ℕ) ^ (307 : ℕ) < (2 : ℕ) ^ (1022 : ℕ) := by norm_num
      exact_mod_cast hnat
    have hlog := Real.log_lt_log (by positivity) hpow
    rw [Real.log_pow, Real.log_pow] at hlog
    push_cast at hlog
    linarith
  · rw [div_lt_iff h10]
    have hpow : ((2 : ℝ) ^ (1022 : ℕ)) < (10 : ℝ) ^ (308 : ℕ) := by
      have hnat : (2 : ℕ) ^ (1022 : ℕ) < (10 : ℕ) ^ (308 : ℕ) := by norm_num
      exact_mod_cast hnat
    have hlog := Real.log_lt_log (by positivity) hpow
    rw [Real.log_pow, Real.log_pow] at hlog
    push_cast at hlog
    linarith


/-- Claim C4: the table returned by mlxp_gamma_poisson contains no
infinite value: every cell is finite, any cell whose transform would be
plus infinity (a tail probability of exactly zero, bottom in log space)
is replaced by -log10(tiny) with tiny the smallest positive normal
double 2 to the power -1022, and that ceiling lies strictly between 307
and 308 (it is about 307.65). -/
theorem mlxp_never_infinite {LF : Type} (counts : DFrame LF ℝ) (rates : List ℝ) :
    (∀ row ∈ (mlxp_gamma_poisson counts rates).data, ∀ cell ∈ row,
        cell ≠ ⊤ ∧ cell ≠ ⊥) ∧
      (∀ v : EReal, v ≠ ⊤ → mlxpCell v ≠ ⊤ ∧ mlxpCell v ≠ ⊥) ∧
      mlxpCell ⊥ = (infReplacement : EReal) ∧
      (307 : ℝ) < infReplacement ∧ infReplacement < 308 := by
  have hcell : ∀ v : EReal, v ≠ ⊤ → mlxpCell v ≠ ⊤ ∧ mlxpCell v ≠ ⊥ := by
    intro v hv
    induction v with
    | h_bot =>
        rw [mlxpCell_bot]
        exact ⟨EReal.coe_ne_top _, EReal.coe_ne_bot _⟩
    | h_real x =>
        rw [mlxpCell_coe]
        exact ⟨EReal.coe_ne_top _, EReal.coe_ne_bot _⟩
    | h_top => exact absurd rfl hv
  refine ⟨?_, hcell, mlxpCell_bot, infReplacement_bounds⟩
  intro row hrow cell hcell_mem
  unfold mlxp_gamma_poisson at hrow
  have hex : ∀ (ds : List (List ℝ)) (rs : List ℝ),
      row ∈ List.zipWith
        (fun y r => (poisson_logsf y r).map (fun x : ℝ => mlxpCell (x : EReal)))
        ds rs →
      ∃ a b, row = (poisson_logsf a b).map (fun x : ℝ => mlxpCell (x : EReal)) := by
    intro ds
    induction ds with
    | nil =>
        intro rs h
        simp at h
    | cons a l ih =>
        intro rs h
        cases rs with
        | nil => simp at h
        | cons b bs =>
            simp only [List.zipWith_cons_cons, List.mem_cons] at h
            rcases h with rfl | h
            · exact ⟨a, b, rfl⟩
            · exact ih bs h
  obtain ⟨a, b, rfl⟩ := hex counts.data rates hrow
  obtain ⟨x, _, rfl⟩ := List.mem_map.mp hcell_mem
  exact hcell _ (EReal.coe_ne_top x)

/-- Claim C9: for every count table and rate vector with one rate per
row, mlxp_gamma_poisson returns a table with exactly the row labels, the
column labels, and the shape of the input table, in which row i is
obtained by applying poisson_logsf to the raw (untrimmed) counts of row i
with rate i and transforming every cell to -value / log(10). -/
theorem mlxp_shape_labels_formula {LF : Type} (counts : DFrame LF ℝ)
    (rates : List ℝ) (hlen : rates.length = counts.data.length) :
    (mlxp_gamma_poisson counts rates).rowLabels = counts.rowLabels ∧
      (mlxp_gamma_poisson counts rates).colLabels = counts.colLabels ∧
      (mlxp_gamma_poisson counts rates).data.length = counts.data.length ∧
      ∀ i, i < counts.data.length →
        ((mlxp_gamma_poisson counts rates).data.getD i []).length =
            (counts.data.getD i []).length ∧
          (mlxp_gamma_poisson counts rates).data.getD i [] =
            (poisson_logsf (counts.data.getD i []) (rates.getD i 0)).map
              (fun x : ℝ => ((-x / Real.log 10 : ℝ) : EReal)) := by
  have hdlen : (mlxp_gamma_poisson counts rates).data.length =
      counts.data.length := by
    unfold mlxp_gamma_poisson
    simp only [List.length_zipWith, hlen, min_self]
  refine ⟨rfl, rfl, hdlen, ?_⟩
  intro i hi
  have hi2 : i < (mlxp_gamma_poisson counts rates).data.length := by
    rw [hdlen]; exact hi
  have hrow : (mlxp_gamma_poisson counts rates).data.getD i [] =
      (poisson_logsf (counts.data.getD i []) (rates.getD i 0)).map
        (fun x : ℝ => mlxpCell (x : EReal)) := by
    rw [List.getD_eq_getElem _ _ hi2]
    unfold mlxp_gamma_poisson
    rw [List.getElem_zipWith]
    rw [List.getD_eq_getElem _ _ hi, List.getD_eq_getElem _ _ (hlen ▸ hi)]
  constructor
  · rw [hrow]
    simp [poisson_logsf]
  · rw [hrow]
    apply List.map_congr_left
    intro x _
    exact mlxpCell_coe x

/-- Witness for C9 at the concrete table with one row [0] and one rate. -/
theorem mlxp_shape_labels_formula_witness :
    ([(1 : ℝ)] : List ℝ).length =
        (DFrame.mk [0] [0] [[(0 : ℝ)]] : DFrame ℕ ℝ).data.length ∧
      ((mlxp_gamma_poisson (DFrame.mk [0] [0] [[(0 : ℝ)]]) [1]).rowLabels =
          (DFrame.mk [0] [0] [[(0 : ℝ)]] : DFrame ℕ ℝ).rowLabels ∧
        (mlxp_gamma_poisson (DFrame.mk [0] [0] [[(0 : ℝ)]]) [1]).colLabels =
          (DFrame.mk [0] [0] [[(0 : ℝ)]] : DFrame ℕ ℝ).colLabels ∧
        (mlxp_gamma_poisson (DFrame.mk [0] [0] [[(0 : ℝ)]]) [1]).data.length =
          (DFrame.mk [0] [0] [[(0 : ℝ)]] : DFrame ℕ ℝ).data.length ∧
        ∀ i, i < (DFrame.mk [0] [0] [[(0 : ℝ)]] : DFrame ℕ ℝ).data.length →
          ((mlxp_gamma_poisson (DFrame.mk [0] [0] [[(0 : ℝ)]]) [1]).data.getD
                i []).length =
              ((DFrame.mk [0] [0] [[(0 : ℝ)]] : DFrame ℕ ℝ).data.getD
                i []).length ∧
            (mlxp_gamma_poisson (DFrame.mk [0] [0] [[(0 : ℝ)]]) [1]).data.getD
                i [] =
              (poisson_logsf
                  ((DFrame.mk [0] [0] [[(0 : ℝ)]] : DFrame ℕ ℝ).data.getD i [])
                  (([(1 : ℝ)] : List ℝ).getD i 0)).map
                (fun x : ℝ => ((-x / Real.log 10 : ℝ) : EReal))) :=
  ⟨rfl, mlxp_shape_labels_formula (DFrame.mk [0] [0] [[(0 : ℝ)]]) [1] rfl⟩

/-- Embedding of sp.stats.scoreatpercentile over the flattened table
values: sort the values, locate the fractional position
per / 100 * (n - 1), and interpolate linearly between the two
neighbouring order statistics (the default fraction method); at an
integer position the fractional part is zero and the order statistic is
returned exactly. -/
noncomputable def scoreatpercentile (xs : List ℝ) (per : ℝ) : ℝ :=
  let sorted := List.insertionSort (fun a b => a ≤ b) xs
  let pos := per * ((xs.length : ℝ) - 1) / 100
  let i := ⌊pos⌋
  let lo := sorted.getD i.toNat 0
  let hi := sorted.getD (i.toNat + 1) lo
  lo + (pos - (i : ℝ)) * (hi - lo)

/-- One trimmed row mean of the orchestrator: np.ma.mean of a row after
masking the values strictly greater than the bound, that is, the sum of
the unmasked cells divided by their number. -/
noncomputable def trimmedRowMean (row : List ℝ) (ub : ℝ) : ℝ :=
  (row.filter (fun v => v ≤ ub)).sum /
    ((row.filter (fun v => v ≤ ub)).length : ℝ)

/-- Embedding of gamma_poisson_model (source default trim_percentile
is 99.9): compute the upper bound as the trim percentile of all table
values, reduce each row to its trimmed mean, fit the gamma prior on that
vector, compute the posterior rates with the fitted prior and the same
bound, compute the significance table from the original counts and those
rates, and return the 4-tuple. -/
noncomputable def gamma_poisson_model {LF : Type}
    (minimize : ((ℝ × ℝ) → ℝ) → (ℝ × ℝ) → (ℝ × ℝ) → OptimizeResult)
    (counts : DFrame LF ℝ) (trim_percentile : ℝ) :
    ℝ × ℝ × List ℝ × DFrame LF EReal :=
  let upper_bound := scoreatpercentile counts.data.flatten trim_percentile
  let trimmed_means := counts.data.map (fun row => trimmedRowMean row upper_bound)
  let p := fit_gamma minimize trimmed_means
  let background_rates :=
    gamma_poisson_posterior_rates counts p.1 p.2 upper_bound
  let mlxp := mlxp_gamma_poisson counts background_rates
  (p.1, p.2, background_rates, mlxp)

/-- Claim C5: gamma_poisson_model runs the stages in order and composes
them as specified: the upper bound is the trim percentile of ALL table
values; the per-row means are taken over cells not exceeding that bound;
fit_gamma is applied to the vector of trimmed row means; the posterior
rates use the fitted pair and the SAME upper bound; the significance
table is computed from the ORIGINAL counts and those rates; and the
function returns the 4-tuple (alpha, beta, rates, table). -/
theorem gamma_poisson_model_stage_composition {LF : Type}
    (minimize : ((ℝ × ℝ) → ℝ) → (ℝ × ℝ) → (ℝ × ℝ) → OptimizeResult)
    (counts : DFrame LF ℝ) (trim_percentile : ℝ) :
    gamma_poisson_model minimize counts trim_percentile =
      ((fit_gamma minimize (counts.data.map (fun row => trimmedRowMean row
          (scoreatpercentile counts.data.flatten trim_percentile)))).1,
        (fit_gamma minimize (counts.data.map (fun row => trimmedRowMean row
          (scoreatpercentile counts.data.flatten trim_percentile)))).2,
        gamma_poisson_posterior_rates counts
          (fit_gamma minimize (counts.data.map (fun row => trimmedRowMean row
            (scoreatpercentile counts.data.flatten trim_percentile)))).1
          (fit_gamma minimize (counts.data.map (fun row => trimmedRowMean row
            (scoreatpercentile counts.data.flatten trim_percentile)))).2
          (scoreatpercentile counts.data.flatten trim_percentile),
        mlxp_gamma_poisson counts
          (gamma_poisson_posterior_rates counts
            (fit_gamma minimize (counts.data.map (fun row => trimmedRowMean row
              (scoreatpercentile counts.data.flatten trim_percentile)))).1
            (fit_gamma minimize (counts.data.map (fun row => trimmedRowMean row
              (scoreatpercentile counts.data.flatten trim_percentile)))).2
            (scoreatpercentile counts.data.flatten trim_percentile))) := rfl
